/-
  Verification of the Veri-easy functional-equivalence checker.

  This file gives a shallow embedding (in Lean 4) of the parts of the
  repository that the specification's claims are about:

  * `VE` models the main crate (`src/check.rs`, `src/defs/function.rs`,
    `src/defs/path.rs`, `src/defs/types.rs`, `src/components/identical.rs`).
  * `PT` models the precondition translator
    (`precond-translator/src/ast/*`, `precond-translator/src/visit.rs`,
    `precond-translator/src/generate/visitors.rs`,
    `precond-translator/src/generate/generator.rs`).

  Rust `Vec<String>`-backed paths are embedded as `List String`; `syn`
  data is embedded only to the depth the code inspects it.
-/
import Mathlib

namespace VE

/-- `defs/path.rs`: `Path(pub Vec<String>)`, embedded as a list of segments.
Equality of Rust `Path` is derived (segment-wise), matching list equality. -/
abbrev Path := List String

/-- `Path::to_string`: join segments with `"::"`. -/
def pathToString (p : Path) : String :=
  String.intercalate "::" p

/-- `Path::join`: append one segment. -/
def pathJoin (p : Path) (seg : String) : Path :=
  p ++ [seg]

/-- The fragment of `syn::Type` that `defs/function.rs` inspects: a path
type is a non-empty sequence of segments, each an identifier together with
its (possibly empty) list of generic arguments; every other `syn::Type`
variant (array, tuple, reference, ...) is collapsed into `other`, which is
all `type_to_string` distinguishes. The `desc` field keeps the original
form so that distinct non-path types are distinct values of the model. -/
inductive SynType where
  /-- `syn::Type::Path`: list of (segment identifier, generic arguments). -/
  | path (segs : List (String × List SynType))
  /-- any non-path `syn::Type` variant. -/
  | other (desc : String)

/-- `defs/function.rs::type_to_string`: a path type renders as its segment
identifiers joined by `sep` (generic arguments are discarded); every other
type renders as the fixed string `"unsupported"`. -/
def type_to_string (ty : SynType) (sep : String) : String :=
  match ty with
  | .path segs => String.intercalate sep (segs.map (fun seg => seg.1))
  | .other _ => "unsupported"

/-- `defs/function.rs::type_eq`: compare two types by their `"::"`-joined
rendered strings. -/
def type_eq (a b : SynType) : Bool :=
  type_to_string a "::" == type_to_string b "::"

/-- The fragment of `syn::FnArg` that signature equality inspects:
receivers carry their `&`/`mut` flags (ignored by the comparison),
typed arguments carry only their type (pattern/name is ignored). -/
inductive FnArg where
  /-- `syn::FnArg::Receiver`; the flags record `&` and `mut`. -/
  | receiver (reference : Bool) (mutability : Bool)
  /-- `syn::FnArg::Typed`; only the type is compared. -/
  | typed (ty : SynType)

/-- The fragment of `syn::ReturnType`. -/
inductive ReturnType where
  | default
  | ty (t : SynType)

/-- `defs/function.rs`: `Signature(pub syn::Signature)`, embedded with the
fields its custom `PartialEq` reads: identifier, inputs, output. -/
structure Signature where
  ident : String
  inputs : List FnArg
  output : ReturnType

/-- `impl PartialEq for Signature` (`defs/function.rs` lines 9-29):
identifiers equal, same arity, positional arguments pairwise equal
(receivers always match receivers; typed arguments by `type_eq`),
and outputs equal (`Default` matches `Default`; types by `type_eq`). -/
def sigEq (a b : Signature) : Bool :=
  a.ident == b.ident
    && a.inputs.length == b.inputs.length
    && (a.inputs.zip b.inputs).all (fun ab =>
        match ab.1, ab.2 with
        | .receiver _ _, .receiver _ _ => true
        | .typed t1, .typed t2 => type_eq t1 t2
        | _, _ => false)
    && (match a.output, b.output with
        | .default, .default => true
        | .ty t1, .ty t2 => type_eq t1 t2
        | _, _ => false)

/-- `defs/types.rs::Type`: either a generic type (base path plus generic
arguments) or a precise type (just a path). -/
inductive Ty where
  /-- `Type::Generic(GenericType { path, generics })`. -/
  | generic (path : Path) (generics : List Ty)
  /-- `Type::Precise(PreciseType(path))`. -/
  | precise (path : Path)

/-- Structural equality of `Ty`, mirroring the derived `PartialEq` of
`defs/types.rs::Type`. -/
def tyEq : Ty → Ty → Bool
  | .generic p1 g1, .generic p2 g2 => p1 == p2 && tyListEq g1 g2
  | .precise p1, .precise p2 => p1 == p2
  | _, _ => false
where
  /-- Pairwise structural equality of generic-argument lists. -/
  tyListEq : List Ty → List Ty → Bool
  | [], [] => true
  | a :: as_, b :: bs => tyEq a b && tyListEq as_ bs
  | _, _ => false

/-- `defs/types.rs::Type::eq_ignore_generics`: generic types compare by
base path only; precise types compare by full (path) equality; a generic
never equals a precise type. -/
def eq_ignore_generics : Ty → Ty → Bool
  | .generic p1 _, .generic p2 _ => p1 == p2
  | .precise p1, .precise p2 => p1 == p2
  | _, _ => false

/-- `defs/types.rs::InstantiatedType`: alias path and concrete type.
Its derived `PartialEq` is `instEq` below. -/
structure InstantiatedType where
  /-- The `alias` field (renamed: `alias` is reserved in Lean). -/
  aliasPath : Path
  concrete : Ty

/-- Derived `PartialEq` of `InstantiatedType` (structural). -/
def instEq (a b : InstantiatedType) : Bool :=
  a.aliasPath == b.aliasPath && tyEq a.concrete b.concrete

/-- `defs/function.rs::FunctionMetadata`. -/
structure FunctionMetadata where
  /-- Fully-qualified name, e.g. `module::MyType::bar`. -/
  name : Path
  signature : Signature
  impl_type : Option Ty

/-- `FunctionMetadata::ident`: the signature's identifier. -/
def FunctionMetadata.identStr (m : FunctionMetadata) : String :=
  m.signature.ident

/-- `defs/function.rs::Function`: metadata plus body text. -/
structure Function where
  metadata : FunctionMetadata
  body : String

/-- `defs/function.rs::CommonFunction`: shared metadata, two bodies. -/
structure CommonFunction where
  metadata : FunctionMetadata
  body1 : String
  body2 : String

/-- `defs/function.rs::Precondition`: name of the original function and
optional impl type. -/
structure Precondition where
  name : Path
  impl_type : Option Ty

/-- `Precondition::ident`: the last segment of the name
(`self.name.0.last().cloned().unwrap()`; the Rust code panics on an empty
name, the embedding returns the `getLast!` default there). -/
def Precondition.identStr (p : Precondition) : String :=
  p.name.getLast!

/-- `Precondition::checker_name` (`defs/function.rs` lines 162-171): when
`impl_type` is set, the single-segment path `verieasy_pre_<ident>`;
otherwise the full name with its last segment replaced by
`verieasy_pre_<ident>`. -/
def Precondition.checker_name (p : Precondition) : Path :=
  if p.impl_type.isSome then
    ["verieasy_pre_" ++ p.identStr]
  else
    p.name.dropLast ++ ["verieasy_pre_" ++ p.identStr]

/-- `check.rs::Checker::preprocess`, matching stage (lines 326-343): for
each function of source 1, find the first function of source 2 with an
equal signature (by `sigEq`) and produce a `CommonFunction` carrying the
source-1 metadata and both bodies. Functions without a match produce
nothing. -/
def findCommonFuncs (src1 src2 : List Function) : List CommonFunction :=
  src1.filterMap (fun f =>
    match src2.find? (fun f2 => sigEq f.metadata.signature f2.metadata.signature) with
    | some f2 => some ⟨f.metadata, f.body, f2.body⟩
    | none => none)

/-- `check.rs::Checker::preprocess` (lines 357-368): intersection of the
two instantiated-type tables — entries of source 1 that also occur (by
derived equality) in source 2. The Rust code stores this in
`common_inst_types`. -/
def commonInstTypes (i1 i2 : List InstantiatedType) : List InstantiatedType :=
  i1.filter (fun t => (i2.find? (fun t2 => instEq t t2)).isSome)

/-- One iteration of the inner rewrite loop of `Checker::preprocess`
(lines 378-388): for each instantiated type whose `concrete` matches
`implTy` by `eq_ignore_generics`, emit a copy of `func` with `impl_type`
replaced by the precise alias type and `name` replaced by
`alias ++ [ident]`. -/
def rewriteMatches (implTy : Ty) (func : CommonFunction) :
    List InstantiatedType → List CommonFunction
  | [] => []
  | it :: rest =>
    (if eq_ignore_generics it.concrete implTy then
      [{ func with metadata :=
          { func.metadata with
            impl_type := some (Ty.precise it.aliasPath)
            name := pathJoin it.aliasPath func.metadata.identStr } }]
    else []) ++ rewriteMatches implTy func rest

/-- `Checker::preprocess` rewrite of one common function (lines 374-392):
when the function has an `impl_type`, every matching instantiated type of
`instTypes` contributes a renamed copy; when none matches (or there is no
`impl_type`), the function is kept unchanged. NOTE: the Rust code passes
`self.src1.inst_types` here, not the computed `common_inst_types`. -/
def rewriteCommonFunc (instTypes : List InstantiatedType)
    (func : CommonFunction) : List CommonFunction :=
  match func.metadata.impl_type with
  | none => [func]
  | some implTy =>
    let r := rewriteMatches implTy func instTypes
    if r.isEmpty then [func] else r

/-- The full rewrite pass over the common functions (lines 373-393). -/
def rewriteCommonFuncs (instTypes : List InstantiatedType)
    (funcs : List CommonFunction) : List CommonFunction :=
  funcs.flatMap (rewriteCommonFunc instTypes)

/-- The analogous per-precondition rewrite (lines 396-415): matching
instantiated types replace `impl_type` with the precise alias type and
`name` with `alias ++ [ident]`. -/
def rewritePrecondMatches (implTy : Ty) (pre : Precondition) :
    List InstantiatedType → List Precondition
  | [] => []
  | it :: rest =>
    (if eq_ignore_generics it.concrete implTy then
      [{ pre with
          impl_type := some (Ty.precise it.aliasPath)
          name := pathJoin it.aliasPath pre.identStr }]
    else []) ++ rewritePrecondMatches implTy pre rest

/-- `Checker::preprocess` rewrite of one precondition (lines 397-414),
again driven by `self.src1.inst_types` in the Rust code. -/
def rewritePrecond (instTypes : List InstantiatedType)
    (pre : Precondition) : List Precondition :=
  match pre.impl_type with
  | none => [pre]
  | some implTy =>
    let r := rewritePrecondMatches implTy pre instTypes
    if r.isEmpty then [pre] else r

/-- The full rewrite pass over the preconditions (lines 395-416). -/
def rewritePreconds (instTypes : List InstantiatedType)
    (pres : List Precondition) : List Precondition :=
  pres.flatMap (rewritePrecond instTypes)

/-- The worklists of `check.rs::Checker` that `run_all` reads and writes
(`under_checking_funcs`, `verified_funcs`, `tested_funcs`, `failed_funcs`).
The remaining `Checker` fields (sources, constructors, getters,
preconditions, components, strict flag) are never modified by `run_all`;
`strict` is passed to `runSteps` separately. -/
structure CheckerState where
  under_checking : List CommonFunction
  verified : List CommonFunction
  tested : List CommonFunction
  failed : List CommonFunction

/-- The state `Checker::new`/`preprocess` hands to `run_all`: the
partitioned common functions under checking, the other three worklists
empty (`check.rs` lines 133-148 and 418-432). -/
def initState (ucf : List CommonFunction) : CheckerState :=
  { under_checking := ucf, verified := [], tested := [], failed := [] }

/-- `under_checking_funcs.iter().find(|f| f.metadata.name == *name)`. -/
def findByName (l : List CommonFunction) (n : Path) : Option CommonFunction :=
  l.find? (fun f => f.metadata.name == n)

/-- `retain(|f| f.metadata.name != *name)`. -/
def removeByName (l : List CommonFunction) (n : Path) : List CommonFunction :=
  l.filter (fun f => !(f.metadata.name == n))

/-- `l.iter().any(|f| f.metadata.name == n)`. -/
def containsName (l : List CommonFunction) (n : Path) : Bool :=
  l.any (fun f => f.metadata.name == n)

/-- `check.rs::CheckResult`: status (`anyhow::Result<()>`, embedded as
`Except String Unit`) and the `ok`/`fail` name lists. -/
structure CheckResult where
  status : Except String Unit
  ok : List Path
  fail : List Path

/-- Body of the `for name in &res.ok` loop of `run_all` (lines 182-207):
if the name is found in `under_checking`, a formal component moves the
function to `verified`; a testing component appends it to `tested` unless
a function of that name is already there, leaving `under_checking`
untouched. Unfound names change nothing. -/
def processOk (isFormal : Bool) (st : CheckerState) (name : Path) : CheckerState :=
  match findByName st.under_checking name with
  | none => st
  | some func =>
    if isFormal then
      { st with
        verified := st.verified ++ [func]
        under_checking := removeByName st.under_checking name }
    else if containsName st.tested func.metadata.name then st
    else { st with tested := st.tested ++ [func] }

/-- Body of the `for name in &res.fail` loop of `run_all` (lines 209-228):
if the name is found in `under_checking`, a testing component moves the
function to `failed`; a formal component only logs. Unfound names change
nothing. -/
def processFail (isFormal : Bool) (st : CheckerState) (name : Path) : CheckerState :=
  match findByName st.under_checking name with
  | none => st
  | some func =>
    if isFormal then st
    else
      { st with
        failed := st.failed ++ [func]
        under_checking := removeByName st.under_checking name }

/-- The state update a non-error component result causes: the `ok` loop
followed by the `fail` loop. -/
def stepComponent (isFormal : Bool) (ok fail : List Path)
    (st : CheckerState) : CheckerState :=
  fail.foldl (processFail isFormal) (ok.foldl (processOk isFormal) st)

/-- `check.rs::Checker::run_all` (lines 151-248), with each component's
run replaced by its recorded `(is_formal, CheckResult)` pair: stop when
`under_checking` is empty; skip (state unchanged) a component whose status
is an error; otherwise apply the two verdict loops, and in strict mode
stop after a testing component that reported any `fail`. -/
def runSteps (strict : Bool) : List (Bool × CheckResult) → CheckerState → CheckerState
  | [], st => st
  | (isFormal, res) :: rest, st =>
    if st.under_checking.isEmpty then st
    else
      match res.status with
      | .error _ => runSteps strict rest st
      | .ok _ =>
        let st2 := stepComponent isFormal res.ok res.fail st
        if !isFormal && !res.fail.isEmpty && strict then st2
        else runSteps strict rest st2

/-- `components/identical.rs::Identical::run` (lines 19-35): status
`Ok(())`, `ok` collects the names of the under-checking functions whose
two bodies are equal as text, `fail` stays empty. `Identical::is_formal`
returns `true`. -/
def identicalRun (st : CheckerState) : CheckResult :=
  { status := .ok ()
    ok := st.under_checking.filterMap (fun func =>
      if func.body1 == func.body2 then some func.metadata.name else none)
    fail := [] }

end VE

namespace PT

/-- `precond-translator/src/ast/path.rs`: `Path(pub Vec<String>)`. -/
abbrev TPath := List String

/-- `Path::to_string`: join segments with `"::"`. -/
def pathToString (p : TPath) : String :=
  String.intercalate "::" p

/-- `ast/op.rs::BinaryOp` (the closed operator set). -/
inductive BinaryOp where
  | eq | ne | lt | le | gt | ge | and | or | add | sub | mul | div | mod | imply

/-- `ast/op.rs::UnaryOp`. -/
inductive UnaryOp where
  | not

/-- `ast/expr.rs::ExprLit`. -/
inductive ExprLit where
  | bool (b : Bool)
  | int (i : Int)
  | str (s : String)

/-- `ast/expr.rs::Expr`: the closed expression grammar of the translator.
`call`'s function is always a path (`ExprCall.func: ExprPath`); blocks are
sequences of expressions. -/
inductive TExpr where
  | lit (l : ExprLit)
  | path (p : TPath)
  | index (base index : TExpr)
  | cast (e : TExpr) (toType : String)
  | field (base : TExpr) (fieldName : String)
  | binary (op : BinaryOp) (left right : TExpr)
  | unary (op : UnaryOp) (e : TExpr)
  | call (func : TPath) (args : List TExpr)
  | methodCall (recv : TExpr) (method : String) (args : List TExpr)

/-- `ast/block.rs::Block`: a list of items, each an expression. -/
abbrev Block := List TExpr

/-- `ast/types.rs::Type` of the translator crate. -/
inductive Ty where
  | generic (path : TPath) (generics : List Ty)
  | precise (path : TPath)

/-- Append a string to the last segment of a path
(`full_path.0.last_mut().unwrap().push_str(..)`; the Rust code panics on
an empty path). -/
def appendToLast (p : TPath) (s : String) : TPath :=
  p.dropLast ++ [p.getLast! ++ s]

mutual
/-- `ast/types.rs::Type::as_path` / `GenericType::as_path`: a precise type
is its path; a generic type with a non-empty argument list renders the
comma-joined argument paths in angle brackets appended to the last
segment. -/
def Ty.as_path : Ty → TPath
  | .precise p => p
  | .generic p gens =>
    if gens.isEmpty then p
    else appendToLast p ("<" ++ String.intercalate ", " (asPathList gens) ++ ">")

/-- The rendered strings of a generic-argument list. -/
def asPathList : List Ty → List String
  | [] => []
  | t :: rest => pathToString t.as_path :: asPathList rest
end

instance : Inhabited TExpr := ⟨TExpr.path []⟩

mutual
/-- `generate/visitors.rs::RemoveOld::visit_expr_mut` (lines 175-189) run
over an expression: a call whose function path renders as `"old"` with
exactly one argument is replaced by that argument (`args.pop().unwrap()`,
i.e. the last — and only — argument, embedded as `getLast!`), and the
visitor returns without visiting the replacement; every other node is
traversed structurally (the default `visit_expr_mut`). -/
def removeOldE : TExpr → TExpr
  | .lit l => .lit l
  | .path p => .path p
  | .index b i => .index (removeOldE b) (removeOldE i)
  | .cast e t => .cast (removeOldE e) t
  | .field b f => .field (removeOldE b) f
  | .binary op l r => .binary op (removeOldE l) (removeOldE r)
  | .unary op e => .unary op (removeOldE e)
  | .call f args =>
    if pathToString f == "old" && args.length == 1 then args.getLast!
    else .call f (removeOldL args)
  | .methodCall r m args => .methodCall (removeOldE r) m (removeOldL args)

/-- `RemoveOld` over the children lists of calls and method calls. -/
def removeOldL : List TExpr → List TExpr
  | [] => []
  | a :: rest => removeOldE a :: removeOldL rest
end

mutual
/-- Analysis predicate over the embedding: the expression contains no
call that the `RemoveOld` rewrite would trigger on (a call of the
single-segment function `old` with exactly one argument). -/
def oldFreeE : TExpr → Bool
  | .lit _ => true
  | .path _ => true
  | .index b i => oldFreeE b && oldFreeE i
  | .cast e _ => oldFreeE e
  | .field b _ => oldFreeE b
  | .binary _ l r => oldFreeE l && oldFreeE r
  | .unary _ e => oldFreeE e
  | .call f args =>
    !(pathToString f == "old" && args.length == 1) && oldFreeL args
  | .methodCall r _ args => oldFreeE r && oldFreeL args

/-- `oldFreeE` over a list of expressions. -/
def oldFreeL : List TExpr → Bool
  | [] => true
  | a :: rest => oldFreeE a && oldFreeL rest
end

mutual
/-- Analysis predicate over the embedding: no `old` call occurs inside the
argument of an `old` call — every call the rewrite triggers on has an
argument that is entirely free of further `old` calls. -/
def noNestedOldE : TExpr → Bool
  | .lit _ => true
  | .path _ => true
  | .index b i => noNestedOldE b && noNestedOldE i
  | .cast e _ => noNestedOldE e
  | .field b _ => noNestedOldE b
  | .binary _ l r => noNestedOldE l && noNestedOldE r
  | .unary _ e => noNestedOldE e
  | .call f args =>
    if pathToString f == "old" && args.length == 1 then oldFreeL args
    else noNestedOldL args
  | .methodCall r _ args => noNestedOldE r && noNestedOldL args

/-- `noNestedOldE` over a list of expressions. -/
def noNestedOldL : List TExpr → Bool
  | [] => true
  | a :: rest => noNestedOldE a && noNestedOldL rest
end

mutual
/-- `generate/visitors.rs::CheckFnCall` (lines 192-271) run over an
expression, returning `true` iff the visitor finishes with
`aborted == false`: a call whose last segment starts with `spec_` is
always accepted (its arguments are still visited); a `Self::f` call is
resolved against `self_ty` (aborting when there is none); any other call
must render (by `to_string`) equal to a path of `fn_list`; a method call
whose name starts with `spec_` is accepted, otherwise it must resolve via
`self_ty` to a listed path. -/
def checkCallsE (fnList : List TPath) (selfTy : Option Ty) : TExpr → Bool
  | .lit _ => true
  | .path _ => true
  | .index b i => checkCallsE fnList selfTy b && checkCallsE fnList selfTy i
  | .cast e _ => checkCallsE fnList selfTy e
  | .field b _ => checkCallsE fnList selfTy b
  | .binary _ l r => checkCallsE fnList selfTy l && checkCallsE fnList selfTy r
  | .unary _ e => checkCallsE fnList selfTy e
  | .call f args =>
    if f.getLast!.startsWith "spec_" then checkCallsL fnList selfTy args
    else
      match (if f.headI == "Self" then
              (match selfTy with
               | some ty => some (ty.as_path ++ f.tail)
               | none => none)
            else some f) with
      | none => false
      | some funcPath =>
        if fnList.any (fun p => pathToString p == pathToString funcPath) then
          checkCallsL fnList selfTy args
        else false
  | .methodCall r m args =>
    if m.startsWith "spec_" then
      checkCallsE fnList selfTy r && checkCallsL fnList selfTy args
    else
      match selfTy with
      | none => false
      | some ty =>
        if fnList.any (fun p =>
            pathToString p == pathToString (ty.as_path ++ [m])) then
          checkCallsE fnList selfTy r && checkCallsL fnList selfTy args
        else false

/-- `CheckFnCall` over a list of expressions. -/
def checkCallsL (fnList : List TPath) (selfTy : Option Ty) : List TExpr → Bool
  | [] => true
  | a :: rest => checkCallsE fnList selfTy a && checkCallsL fnList selfTy rest
end

/-- `generate/generator.rs::is_spec_fn_generatable` (lines 231-235):
run `CheckFnCall` over the body block and report no abort. -/
def is_spec_fn_generatable (allowed : List TPath) (body : Block)
    (selfTy : Option Ty) : Bool :=
  checkCallsL allowed selfTy body

/-- `ast/mod.rs::SpecFunction` (the fields the allowed-set computation
reads: name and body). -/
structure SpecFunction where
  name : TPath
  body : Block

/-- `ast/mod.rs::SpecMethod` (the fields the allowed-set computation
reads: impl type, signature identifier, body). -/
structure SpecMethod where
  impl_type : Ty
  identStr : String
  body : Block

/-- `SpecMethod::name`: `impl_type.as_path().join(signature.ident)`. -/
def SpecMethod.name (m : SpecMethod) : TPath :=
  m.impl_type.as_path ++ [m.identStr]

/-- The `for spec_fn in spec_fns` removal loop inside one iteration of
`calculate_allowed_fns` (lines 248-252): each non-generatable spec
function's name is removed from the allowed list before the next spec
function is checked. -/
def sweepFns : List SpecFunction → List TPath → List TPath
  | [], allowed => allowed
  | f :: rest, allowed =>
    sweepFns rest
      (if is_spec_fn_generatable allowed f.body none then allowed
       else allowed.filter (fun p => !(p == f.name)))

/-- The `for method in spec_methods` removal loop (lines 253-261). -/
def sweepMethods : List SpecMethod → List TPath → List TPath
  | [], allowed => allowed
  | m :: rest, allowed =>
    sweepMethods rest
      (if is_spec_fn_generatable allowed m.body (some m.impl_type) then allowed
       else allowed.filter (fun p => !(p == m.name)))

/-- One iteration of the `loop` of `calculate_allowed_fns`: both removal
loops in order. -/
def sweepAllowed (fns : List SpecFunction) (ms : List SpecMethod)
    (allowed : List TPath) : List TPath :=
  sweepMethods ms (sweepFns fns allowed)

/-- The initial allowed list (lines 239-243): the names of every spec
function, then every spec method. -/
def initialAllowed (fns : List SpecFunction) (ms : List SpecMethod) : List TPath :=
  fns.map (fun f => f.name) ++ ms.map (fun m => m.name)

/-- `sweepFns` only ever removes entries. -/
theorem sweepFns_sublist (fns : List SpecFunction) :
    ∀ a : List TPath, (sweepFns fns a).Sublist a := by
  induction fns with
  | nil => intro a; exact List.Sublist.refl a
  | cons f rest ih =>
    intro a
    rw [sweepFns]
    by_cases h : is_spec_fn_generatable a f.body none = true
    · simpa [h] using ih a
    · simp only [h, if_false]
      exact (ih _).trans (List.filter_sublist a)

/-- `sweepMethods` only ever removes entries. -/
theorem sweepMethods_sublist (ms : List SpecMethod) :
    ∀ a : List TPath, (sweepMethods ms a).Sublist a := by
  induction ms with
  | nil => intro a; exact List.Sublist.refl a
  | cons m rest ih =>
    intro a
    rw [sweepMethods]
    by_cases h : is_spec_fn_generatable a m.body (some m.impl_type) = true
    · simpa [h] using ih a
    · simp only [h, if_false]
      exact (ih _).trans (List.filter_sublist a)

/-- One iteration only ever removes entries. -/
theorem sweepAllowed_sublist (fns : List SpecFunction) (ms : List SpecMethod)
    (a : List TPath) : (sweepAllowed fns ms a).Sublist a :=
  (sweepMethods_sublist ms _).trans (sweepFns_sublist fns a)

set_option linter.unusedVariables false in
/-- The `loop` of `calculate_allowed_fns` (lines 245-266): sweep, and stop
as soon as a sweep does not change the length of the allowed list. The
recursion is well-founded because a sweep that changes the length strictly
shrinks the (finite) list — exactly the spec's termination argument. -/
def allowedLoop (fns : List SpecFunction) (ms : List SpecMethod)
    (allowed : List TPath) : List TPath :=
  if h : (sweepAllowed fns ms allowed).length = allowed.length then
    sweepAllowed fns ms allowed
  else allowedLoop fns ms (sweepAllowed fns ms allowed)
termination_by allowed.length
decreasing_by
  exact Nat.lt_of_le_of_ne (sweepAllowed_sublist fns ms allowed).length_le h

/-- `generate/generator.rs::calculate_allowed_fns` (lines 237-268). -/
def calculate_allowed_fns (fns : List SpecFunction) (ms : List SpecMethod) : List TPath :=
  allowedLoop fns ms (initialAllowed fns ms)

end PT

/-! Concrete sample inputs used by counterexamples and witnesses. -/

namespace VE

/-- `fn add(a: u32, b: u32) -> u32` as the embedding sees it (parameter
names are not part of the embedded signature because the comparison
ignores them). -/
def addSig : Signature :=
  { ident := "add"
    inputs := [.typed (.path [("u32", [])]), .typed (.path [("u32", [])])]
    output := .ty (.path [("u32", [])]) }

/-- `mod m1 { fn add(a: u32, b: u32) -> u32 { a + b } }` in source 1:
collected with fully-qualified name `m1::add`. -/
def addFunc1 : Function :=
  { metadata := { name := ["m1", "add"], signature := addSig, impl_type := none }
    body := "{ a + b }" }

/-- `mod m2 { fn add(a: u32, b: u32) -> u32 { b + a } }` in source 2:
collected with fully-qualified name `m2::add`. -/
def addFunc2 : Function :=
  { metadata := { name := ["m2", "add"], signature := addSig, impl_type := none }
    body := "{ b + a }" }

/-- `fn sum(v: Vec<u16>) -> u32` — the parameter type `Vec<u16>`. -/
def sumSigU16 : Signature :=
  { ident := "sum"
    inputs := [.typed (.path [("Vec", [.path [("u16", [])]])])]
    output := .ty (.path [("u32", [])]) }

/-- `fn sum(v: Vec<u32>) -> u32` — the parameter type `Vec<u32>`. -/
def sumSigU32 : Signature :=
  { ident := "sum"
    inputs := [.typed (.path [("Vec", [.path [("u32", [])]])])]
    output := .ty (.path [("u32", [])]) }

/-- `fn len(v: [u16; 16]) -> u32` — a non-path (array) parameter type. -/
def lenSigArr : Signature :=
  { ident := "len"
    inputs := [.typed (.other "[u16; 16]")]
    output := .ty (.path [("u32", [])]) }

/-- `fn len(v: (u8, u8)) -> u32` — a non-path (tuple) parameter type. -/
def lenSigTup : Signature :=
  { ident := "len"
    inputs := [.typed (.other "(u8, u8)")]
    output := .ty (.path [("u32", [])]) }

/-- Source-1 function with the `Vec<u16>` signature. -/
def sumFunc1 : Function :=
  { metadata := { name := ["sum"], signature := sumSigU16, impl_type := none }
    body := "{ v.iter().map(|x| *x as u32).sum() }" }

/-- Source-2 function with the `Vec<u32>` signature. -/
def sumFunc2 : Function :=
  { metadata := { name := ["sum"], signature := sumSigU32, impl_type := none }
    body := "{ v.iter().sum() }" }

/-- A method `Foo<T>::m` (impl type `Foo<T>`, generic) common to both
sources. -/
def fooMethod : CommonFunction :=
  { metadata :=
      { name := ["Foo", "m"]
        signature := { ident := "m", inputs := [.receiver true false], output := .default }
        impl_type := some (.generic ["Foo"] [.precise ["T"]]) }
    body1 := "{ self.0 }"
    body2 := "{ self.0 + 0 }" }

/-- `type FB = Foo<Bar>;` — an instantiated type present in source 1. -/
def fbInst : InstantiatedType :=
  { aliasPath := ["FB"], concrete := .generic ["Foo"] [.precise ["Bar"]] }

/-- A free-function precondition on `m1::f`. -/
def preM1F : Precondition := { name := ["m1", "f"], impl_type := none }

/-- A free-function precondition on `m2::f`. -/
def preM2F : Precondition := { name := ["m2", "f"], impl_type := none }

/-- A one-element checker state used by witnesses. -/
def sampleState : CheckerState :=
  initState [{ metadata := { name := ["m1", "add"], signature := addSig, impl_type := none }
               body1 := "{ a + b }", body2 := "{ a + b }" }]

/-- A `CheckResult` carrying an error status. -/
def errResult : CheckResult :=
  { status := .error "Failed to execute component", ok := [], fail := [] }

end VE

namespace PT

/-- `old(old(x))` in a requires clause. -/
def oldOldX : TExpr := .call ["old"] [.call ["old"] [.path ["x"]]]

/-- `old(x)` in a requires clause. -/
def oldX : TExpr := .call ["old"] [.path ["x"]]

end PT

/-! Claim theorems. -/

namespace VE

/-- Claim C6: for every checker state, the Identical component returns a
`CheckResult` with `Ok` status whose `ok` list contains (the name of) a
function currently in `under_checking` if and only if that function's
`body1` and `body2` are equal as text, and whose `fail` list is always
empty. -/
theorem C6_identical_component : ∀ st : CheckerState,
    (identicalRun st).status = .ok () ∧
    (identicalRun st).fail = [] ∧
    ∀ n : Path, n ∈ (identicalRun st).ok ↔
      ∃ f ∈ st.under_checking, f.metadata.name = n ∧ f.body1 = f.body2 := by
  intro st
  refine ⟨rfl, rfl, fun n => ?_⟩
  simp only [identicalRun, List.mem_filterMap, Option.ite_none_right_eq_some,
    Option.some.injEq, beq_iff_eq]
  constructor
  · rintro ⟨f, hf, hb, hn⟩
    exact ⟨f, hf, hn, hb⟩
  · rintro ⟨f, hf, hn, hb⟩
    exact ⟨f, hf, hb, hn⟩

/-- When `under_checking` is empty, `run_all` stops at once: the state is
returned unchanged whatever the remaining components are. -/
theorem runSteps_of_isEmpty (strict : Bool) (steps : List (Bool × CheckResult))
    (st : CheckerState) (h : st.under_checking.isEmpty = true) :
    runSteps strict steps st = st := by
  cases steps with
  | nil => rfl
  | cons s rest =>
    cases s with
    | mk b r =>
      rw [runSteps]
      simp [h]

/-- Claim C10: a component step whose `CheckResult` carries an error
status leaves the checker state unchanged and the pipeline proceeds to
the next component: running the error component followed by the rest is
the same as running the rest from the same state. -/
theorem C10_error_component_skipped : ∀ (strict isFormal : Bool)
    (rest : List (Bool × CheckResult)) (st : CheckerState)
    (res : CheckResult) (e : String),
    res.status = .error e →
    runSteps strict ((isFormal, res) :: rest) st = runSteps strict rest st := by
  intro strict b rest st res e he
  rw [runSteps]
  by_cases h : st.under_checking.isEmpty = true
  · rw [if_pos h, runSteps_of_isEmpty strict rest st h]
  · rw [if_neg h, he]

/-- Witness for C10 at a concrete state and a concrete erroring result. -/
theorem C10_witness :
    errResult.status = Except.error "Failed to execute component" ∧
    runSteps false [(true, errResult)] sampleState = runSteps false [] sampleState :=
  ⟨rfl, C10_error_component_skipped false true [] sampleState errResult
    "Failed to execute component" rfl⟩

end VE

namespace PT

/-- A sweep that does not change the length did not remove anything. -/
theorem sweepAllowed_eq_of_length (fns : List SpecFunction) (ms : List SpecMethod)
    (a : List TPath) (h : (sweepAllowed fns ms a).length = a.length) :
    sweepAllowed fns ms a = a :=
  (sweepAllowed_sublist fns ms a).eq_of_length h

/-- The loop of `calculate_allowed_fns` returns a sub-list of its input
that one further sweep leaves unchanged. -/
theorem allowedLoop_props (fns : List SpecFunction) (ms : List SpecMethod) :
    ∀ (k : Nat) (a : List TPath), a.length ≤ k →
    (allowedLoop fns ms a).Sublist a ∧
    sweepAllowed fns ms (allowedLoop fns ms a) = allowedLoop fns ms a := by
  intro k
  induction k with
  | zero =>
    intro a ha
    have ha0 : a = [] := List.eq_nil_of_length_eq_zero (Nat.le_zero.mp ha)
    subst ha0
    have hs : sweepAllowed fns ms [] = [] :=
      List.sublist_nil.mp (sweepAllowed_sublist fns ms [])
    rw [allowedLoop]
    simp [hs]
  | succ k ih =>
    intro a ha
    rw [allowedLoop]
    by_cases h : (sweepAllowed fns ms a).length = a.length
    · rw [dif_pos h]
      have heq : sweepAllowed fns ms a = a := sweepAllowed_eq_of_length fns ms a h
      refine ⟨sweepAllowed_sublist fns ms a, ?_⟩
      rw [heq]
      exact heq
    · rw [dif_neg h]
      have hlt : (sweepAllowed fns ms a).length < a.length :=
        Nat.lt_of_le_of_ne (sweepAllowed_sublist fns ms a).length_le h
      have hle : (sweepAllowed fns ms a).length ≤ k :=
        Nat.le_of_lt_succ (Nat.lt_of_lt_of_le hlt ha)
      obtain ⟨h1, h2⟩ := ih (sweepAllowed fns ms a) hle
      exact ⟨h1.trans (sweepAllowed_sublist fns ms a), h2⟩

/-- Claim C9: the allowed-set computation terminates (the recursion of
`allowedLoop` is well-founded by the strictly shrinking length of the
finite allowed list — the definition itself carries that termination
argument), its result is a sub-list of the initial name set, and the
result is a fixed point: one further removal sweep (which removes every
spec item whose body calls a callee neither in the result nor
known-executable) removes nothing. -/
theorem C9_allowed_set_fixed_point : ∀ (fns : List SpecFunction) (ms : List SpecMethod),
    (calculate_allowed_fns fns ms).Sublist (initialAllowed fns ms) ∧
    sweepAllowed fns ms (calculate_allowed_fns fns ms) = calculate_allowed_fns fns ms := by
  intro fns ms
  exact allowedLoop_props fns ms (initialAllowed fns ms).length (initialAllowed fns ms) le_rfl

end PT

namespace VE

/-- Claim C3: the per-name worklist updates of a non-error component step.
`processOk`/`processFail` are the bodies of the `ok`/`fail` loops of
`run_all`; the step applies them over the verdict lists. A name not found
in `under_checking` changes nothing; an `ok` from a formal component moves
the function to `verified`; an `ok` from a testing component appends it to
`tested` (duplicates suppressed) and leaves `under_checking` as it was;
a `fail` from a testing component moves it to `failed`; a `fail` from a
formal component changes none of the worklists. -/
theorem C3_verdict_state_update : ∀ (b : Bool) (st : CheckerState) (n : Path),
    (findByName st.under_checking n = none →
      processOk b st n = st ∧ processFail b st n = st) ∧
    (∀ f : CommonFunction, findByName st.under_checking n = some f →
      processOk true st n =
        { st with verified := st.verified ++ [f]
                  under_checking := removeByName st.under_checking n } ∧
      processOk false st n =
        { st with tested :=
            if containsName st.tested f.metadata.name then st.tested
            else st.tested ++ [f] } ∧
      processFail false st n =
        { st with failed := st.failed ++ [f]
                  under_checking := removeByName st.under_checking n } ∧
      processFail true st n = st) := by
  intro b st n
  constructor
  · intro h
    constructor
    · simp [processOk, h]
    · simp [processFail, h]
  · intro f hf
    refine ⟨?_, ?_, ?_, ?_⟩
    · simp [processOk, hf]
    · by_cases hc : containsName st.tested f.metadata.name = true
      · simp [processOk, hf, hc]
      · simp [processOk, hf, hc]
    · simp [processFail, hf]
    · simp [processFail, hf]

/-- Expanding `containsName` over an append. -/
theorem containsName_append (l1 l2 : List CommonFunction) (n : Path) :
    containsName (l1 ++ l2) n = (containsName l1 n || containsName l2 n) :=
  List.any_append

/-- A function found by name carries that name. -/
theorem findByName_eq_name {l : List CommonFunction} {n : Path} {f : CommonFunction}
    (h : findByName l n = some f) : f.metadata.name = n := by
  have hp := List.find?_some h
  exact beq_iff_eq.mp hp

/-- A function found by name is in the list. -/
theorem findByName_mem {l : List CommonFunction} {n : Path} {f : CommonFunction}
    (h : findByName l n = some f) : f ∈ l :=
  List.mem_of_find?_eq_some h

/-- A function found by name makes `containsName` true. -/
theorem containsName_of_findByName {l : List CommonFunction} {n : Path} {f : CommonFunction}
    (h : findByName l n = some f) : containsName l n = true := by
  have hm := findByName_mem h
  have hp := List.find?_some h
  exact List.any_eq_true.mpr ⟨f, hm, hp⟩

/-- Removing a name removes it. -/
theorem containsName_removeByName_self (l : List CommonFunction) (n : Path) :
    containsName (removeByName l n) n = false := by
  rw [Bool.eq_false_iff]
  intro hc
  obtain ⟨f, hf, hp⟩ := List.any_eq_true.mp hc
  have := (List.mem_filter.mp hf).2
  rw [hp] at this
  simp at this

/-- `removeByName` can only lose names. -/
theorem containsName_of_removeByName {l : List CommonFunction} {n m : Path}
    (h : containsName (removeByName l n) m = true) : containsName l m = true := by
  obtain ⟨f, hf, hp⟩ := List.any_eq_true.mp h
  exact List.any_eq_true.mpr ⟨f, (List.mem_filter.mp hf).1, hp⟩

/-- A member's name makes `containsName` true. -/
theorem containsName_of_mem {l : List CommonFunction} {f : CommonFunction}
    (h : f ∈ l) : containsName l f.metadata.name = true :=
  List.any_eq_true.mpr ⟨f, h, by simp⟩

/-- `containsName` over a one-element list. -/
theorem containsName_singleton (f : CommonFunction) (m : Path) :
    containsName [f] m = (f.metadata.name == m) := by
  simp [containsName]

/-- No name of `l1` occurs in `l2`. -/
def namesDisjoint (l1 l2 : List CommonFunction) : Prop :=
  ∀ n : Path, containsName l1 n = true → containsName l2 n = false

/-- `namesDisjoint` is symmetric. -/
theorem namesDisjoint.symm {l1 l2 : List CommonFunction}
    (h : namesDisjoint l1 l2) : namesDisjoint l2 l1 := by
  intro n h2
  rw [Bool.eq_false_iff]
  intro h1
  have := h n h1
  rw [h2] at this
  cases this

/-- The invariant `run_all` maintains on the worklists: the two terminal
buckets are name-disjoint, and each is name-disjoint from
`under_checking`. -/
def WorklistInv (st : CheckerState) : Prop :=
  namesDisjoint st.verified st.failed ∧
  namesDisjoint st.under_checking st.verified ∧
  namesDisjoint st.under_checking st.failed

/-- `processOk` preserves the worklist invariant. -/
theorem processOk_inv (b : Bool) (st : CheckerState) (n : Path)
    (h : WorklistInv st) : WorklistInv (processOk b st n) := by
  obtain ⟨hvf, huv, huf⟩ := h
  unfold processOk
  cases hfind : findByName st.under_checking n with
  | none => exact ⟨hvf, huv, huf⟩
  | some f =>
    have hfn : f.metadata.name = n := findByName_eq_name hfind
    have hfu : containsName st.under_checking n = true := containsName_of_findByName hfind
    cases b with
    | true =>
      simp only [if_pos]
      refine ⟨?_, ?_, ?_⟩
      · intro m hm
        rw [containsName_append] at hm
        rcases Bool.or_eq_true_iff.mp hm with hm | hm
        · exact hvf m hm
        · rw [containsName_singleton] at hm
          have hmn : f.metadata.name = m := beq_iff_eq.mp hm
          rw [← hmn, hfn]
          exact huf n hfu
      · intro m hm
        rw [containsName_append, Bool.or_eq_false_iff]
        refine ⟨huv m (containsName_of_removeByName hm), ?_⟩
        rw [containsName_singleton, Bool.eq_false_iff]
        intro hp
        have hmn : f.metadata.name = m := beq_iff_eq.mp hp
        rw [← hmn, hfn] at hm
        rw [containsName_removeByName_self st.under_checking n] at hm
        cases hm
      · intro m hm
        exact huf m (containsName_of_removeByName hm)
    | false =>
      by_cases hc : containsName st.tested f.metadata.name = true
      · simp only [if_neg (Bool.false_ne_true), hc, if_pos]
        exact ⟨hvf, huv, huf⟩
      · simp only [if_neg (Bool.false_ne_true), if_neg hc]
        exact ⟨hvf, huv, huf⟩

/-- `processFail` preserves the worklist invariant. -/
theorem processFail_inv (b : Bool) (st : CheckerState) (n : Path)
    (h : WorklistInv st) : WorklistInv (processFail b st n) := by
  obtain ⟨hvf, huv, huf⟩ := h
  unfold processFail
  cases hfind : findByName st.under_checking n with
  | none => exact ⟨hvf, huv, huf⟩
  | some f =>
    have hfn : f.metadata.name = n := findByName_eq_name hfind
    have hfu : containsName st.under_checking n = true := containsName_of_findByName hfind
    cases b with
    | true =>
      simp only [if_pos]
      exact ⟨hvf, huv, huf⟩
    | false =>
      simp only [if_neg (Bool.false_ne_true)]
      refine ⟨?_, ?_, ?_⟩
      · intro m hm
        rw [containsName_append, Bool.or_eq_false_iff]
        refine ⟨hvf m hm, ?_⟩
        rw [containsName_singleton, Bool.eq_false_iff]
        intro hp
        have hmn : f.metadata.name = m := beq_iff_eq.mp hp
        have hvm := huv.symm m hm
        rw [← hmn, hfn] at hvm
        rw [hfu] at hvm
        cases hvm
      · intro m hm
        exact huv m (containsName_of_removeByName hm)
      · intro m hm
        rw [containsName_append, Bool.or_eq_false_iff]
        refine ⟨huf m (containsName_of_removeByName hm), ?_⟩
        rw [containsName_singleton, Bool.eq_false_iff]
        intro hp
        have hmn : f.metadata.name = m := beq_iff_eq.mp hp
        rw [← hmn, hfn] at hm
        rw [containsName_removeByName_self st.under_checking n] at hm
        cases hm

/-- The `ok` loop preserves the worklist invariant. -/
theorem foldl_processOk_inv (b : Bool) :
    ∀ (names : List Path) (st : CheckerState), WorklistInv st →
      WorklistInv (names.foldl (processOk b) st)
  | [], _st, h => h
  | n :: rest, st, h =>
    foldl_processOk_inv b rest (processOk b st n) (processOk_inv b st n h)

/-- The `fail` loop preserves the worklist invariant. -/
theorem foldl_processFail_inv (b : Bool) :
    ∀ (names : List Path) (st : CheckerState), WorklistInv st →
      WorklistInv (names.foldl (processFail b) st)
  | [], _st, h => h
  | n :: rest, st, h =>
    foldl_processFail_inv b rest (processFail b st n) (processFail_inv b st n h)

/-- A full non-error component step preserves the worklist invariant. -/
theorem stepComponent_inv (b : Bool) (ok fail : List Path) (st : CheckerState)
    (h : WorklistInv st) : WorklistInv (stepComponent b ok fail st) :=
  foldl_processFail_inv b fail _ (foldl_processOk_inv b ok st h)

/-- `run_all` preserves the worklist invariant through every step. -/
theorem runSteps_inv (strict : Bool) :
    ∀ (steps : List (Bool × CheckResult)) (st : CheckerState), WorklistInv st →
      WorklistInv (runSteps strict steps st) := by
  intro steps
  induction steps with
  | nil => intro st h; exact h
  | cons s rest ih =>
    intro st h
    obtain ⟨b, res⟩ := s
    rw [runSteps]
    by_cases he : st.under_checking.isEmpty = true
    · rw [if_pos he]; exact h
    · rw [if_neg he]
      cases hs : res.status with
      | error e => exact ih st h
      | ok u =>
        have h2 := stepComponent_inv b res.ok res.fail st h
        by_cases hb : (!b && !res.fail.isEmpty && strict) = true
        · rw [if_pos hb]; exact h2
        · rw [if_neg hb]; exact ih _ h2

/-- Claim C4: starting from the state preprocessing produces (`verified`,
`tested`, `failed` empty), after any sequence of component steps no
function name is simultaneously in `verified_funcs` and in `failed_funcs`
— every function ends in at most one of the two terminal buckets. Since
the step sequence is arbitrary, this holds after each step. -/
theorem C4_terminal_buckets_disjoint : ∀ (strict : Bool)
    (steps : List (Bool × CheckResult)) (ucf : List CommonFunction) (n : Path),
    (containsName (runSteps strict steps (initState ucf)).verified n &&
     containsName (runSteps strict steps (initState ucf)).failed n) = false := by
  intro strict steps ucf n
  have hinv0 : WorklistInv (initState ucf) := by
    refine ⟨?_, ?_, ?_⟩
    · intro m hm; cases hm
    · intro m hm; rfl
    · intro m hm; rfl
  have hinv := runSteps_inv strict steps (initState ucf) hinv0
  by_cases hv : containsName (runSteps strict steps (initState ucf)).verified n = true
  · rw [hv, hinv.1 n hv]
    rfl
  · rw [Bool.not_eq_true] at hv
    rw [hv]
    rfl

end VE

namespace VE

/-- A precondition on the method `Foo<T>::m` (impl type `Foo<T>`). -/
def fooPre : Precondition :=
  { name := ["Foo", "m"], impl_type := some (.generic ["Foo"] [.precise ["T"]]) }

/-- Claim C1 (amended): preprocessing produces a `CommonFunction` for a
source-1 function exactly when source 2 contains a function with an equal
signature by `sigEq` — which compares the identifier, arity, argument
types and return type, but not the fully-qualified name. The produced
`CommonFunction` carries the source-1 metadata (including its
fully-qualified name) and the two bodies; the matched functions need only
share the identifier, not the full path. -/
theorem C1_common_iff_signature_match : ∀ (src1 src2 : List Function),
    (∀ cf ∈ findCommonFuncs src1 src2, ∃ f1 ∈ src1, ∃ f2 ∈ src2,
      cf.metadata = f1.metadata ∧ cf.body1 = f1.body ∧ cf.body2 = f2.body ∧
      sigEq f1.metadata.signature f2.metadata.signature = true) ∧
    (∀ f1 ∈ src1,
      (∃ f2 ∈ src2, sigEq f1.metadata.signature f2.metadata.signature = true) →
      ∃ cf ∈ findCommonFuncs src1 src2,
        cf.metadata = f1.metadata ∧ cf.body1 = f1.body) := by
  intro src1 src2
  constructor
  · intro cf hcf
    simp only [findCommonFuncs, List.mem_filterMap] at hcf
    obtain ⟨f1, hf1, heq⟩ := hcf
    cases hfind : src2.find?
        (fun f2 => sigEq f1.metadata.signature f2.metadata.signature) with
    | none => rw [hfind] at heq; cases heq
    | some f2 =>
      rw [hfind] at heq
      obtain rfl := Option.some.inj heq
      have hp := List.find?_some hfind
      exact ⟨f1, hf1, f2, List.mem_of_find?_eq_some hfind, rfl, rfl, rfl, hp⟩
  · intro f1 hf1 hex
    obtain ⟨f2, hf2, hsig⟩ := hex
    have hsome : (src2.find?
        (fun g => sigEq f1.metadata.signature g.metadata.signature)).isSome := by
      rw [List.find?_isSome]
      exact ⟨f2, hf2, hsig⟩
    obtain ⟨g, hg⟩ := Option.isSome_iff_exists.mp hsome
    refine ⟨⟨f1.metadata, f1.body, g.body⟩, ?_, rfl, rfl⟩
    simp only [findCommonFuncs, List.mem_filterMap]
    exact ⟨f1, hf1, by rw [hg]⟩

/-- Claim C1 counterexample: each source holds exactly one function, the
fully-qualified names `m1::add` and `m2::add` differ, yet preprocessing
still produces a `CommonFunction` — matching is by signature (identifier
`add`) alone, so "identical fully-qualified names" is not required. -/
theorem C1_name_mismatch_counterexample :
    (findCommonFuncs [addFunc1] [addFunc2]).length = 1 ∧
    ((addFunc1.metadata.name == addFunc2.metadata.name) = false) := by
  exact ⟨rfl, rfl⟩

/-- Witness for C1 (amended): instantiating the amended theorem at the
concrete sources discharges its hypotheses and recovers the concrete
common function. -/
theorem C1_witness :
    ∃ cf ∈ findCommonFuncs [addFunc1] [addFunc2],
      cf.metadata = addFunc1.metadata ∧ cf.body1 = addFunc1.body :=
  (C1_common_iff_signature_match [addFunc1] [addFunc2]).2 addFunc1
    (List.mem_singleton.mpr rfl) ⟨addFunc2, List.mem_singleton.mpr rfl, rfl⟩

/-- Claim C2: `preprocess` computes the intersection of the two
instantiated-type tables (`common_inst_types`) — empty here, because
`type FB = Foo<Bar>` occurs only in source 1 — but the rewrite loops read
`self.src1.inst_types` instead, so `Foo<T>::m` (and the matching
precondition) is still renamed to `FB::m`. The spec (and the otherwise
dead `common_inst_types` value) requires the rewrite to use the
intersection, under which nothing would be renamed. -/
theorem C2_rewrite_uses_src1_table_only :
    commonInstTypes [fbInst] [] = [] ∧
    rewriteCommonFuncs [fbInst] [fooMethod] =
      [{ fooMethod with metadata :=
          { fooMethod.metadata with
            impl_type := some (Ty.precise ["FB"])
            name := ["FB", "m"] } }] ∧
    rewritePreconds [fbInst] [fooPre] =
      [{ fooPre with impl_type := some (Ty.precise ["FB"]), name := ["FB", "m"] }] := by
  refine ⟨rfl, rfl, rfl⟩

/-- Claim C5: signature equality compares each positional argument type
and the return type only by the `"::"`-joined sequence of path-segment
identifiers: path types whose segments carry the same identifiers are
equal whatever their generic arguments; any two non-path types render as
`"unsupported"` and compare equal; consequently `Vec<u16>` vs `Vec<u32>`
parameters (and an array vs a tuple parameter) yield equal signatures,
and such functions are matched as common by preprocessing. -/
theorem C5_type_comparison_shape :
    (∀ segs1 segs2 : List (String × List SynType),
      segs1.map Prod.fst = segs2.map Prod.fst →
      type_eq (.path segs1) (.path segs2) = true) ∧
    (∀ d1 d2 : String, type_eq (.other d1) (.other d2) = true) ∧
    sigEq sumSigU16 sumSigU32 = true ∧
    sigEq lenSigArr lenSigTup = true ∧
    (findCommonFuncs [sumFunc1] [sumFunc2]).length = 1 := by
  refine ⟨?_, ?_, rfl, rfl, rfl⟩
  · intro s1 s2 h
    simp [type_eq, type_to_string, h]
  · intro d1 d2
    rfl

/-- Claim C7 counterexample: two free-function preconditions on `m1::f`
and `m2::f` — equal last name segment, `impl_type` unset in both — have
different `checker_name`s (`m1::verieasy_pre_f` vs `m2::verieasy_pre_f`):
for free functions, `checker_name` keeps the parent path and so does not
depend only on the last segment. -/
theorem C7_checker_name_counterexample :
    preM1F.name.getLast! = preM2F.name.getLast! ∧
    preM1F.impl_type = none ∧ preM2F.impl_type = none ∧
    ((preM1F.checker_name == preM2F.checker_name) = false) := by
  refine ⟨rfl, rfl, rfl, rfl⟩

/-- Claim C7 (amended): when `impl_type` is set in both preconditions,
`checker_name` depends only on the last name segment (it is the
single-segment path `verieasy_pre_<last>`); when `impl_type` is unset,
`checker_name` is the full name with the last segment prefixed by
`verieasy_pre_`, so it preserves — and depends on — the parent path. -/
theorem C7_checker_name_dependence : ∀ p1 p2 : Precondition,
    (p1.impl_type.isSome = true → p2.impl_type.isSome = true →
      p1.name.getLast! = p2.name.getLast! →
      p1.checker_name = p2.checker_name) ∧
    (p1.impl_type = none →
      p1.checker_name =
        p1.name.dropLast ++ ["verieasy_pre_" ++ p1.name.getLast!]) := by
  intro p1 p2
  constructor
  · intro h1 h2 hl
    simp [Precondition.checker_name, Precondition.identStr, h1, h2, hl]
  · intro h
    simp [Precondition.checker_name, Precondition.identStr, h]

/-- Witness for C7 (amended): two method preconditions with the same last
segment get the same checker name. -/
theorem C7_witness :
    fooPre.checker_name =
      (Precondition.mk ["Bar", "m"] (some (.generic ["Bar"] []))).checker_name :=
  (C7_checker_name_dependence fooPre
    (Precondition.mk ["Bar", "m"] (some (.generic ["Bar"] [])))).1 rfl rfl rfl

end VE

namespace PT

/-- One pass of `RemoveOld` preserves the length of an argument list. -/
theorem removeOldL_length : ∀ l : List TExpr, (removeOldL l).length = l.length
  | [] => rfl
  | a :: rest => by
    rw [removeOldL]
    simp [removeOldL_length rest]

mutual
/-- An expression without `old` calls is left unchanged by `RemoveOld`. -/
theorem removeOldE_of_oldFree : ∀ e : TExpr, oldFreeE e = true → removeOldE e = e
  | .lit _, _ => rfl
  | .path _, _ => rfl
  | .index b i, h => by
    rw [oldFreeE] at h
    obtain ⟨h1, h2⟩ := Bool.and_eq_true_iff.mp h
    rw [removeOldE, removeOldE_of_oldFree b h1, removeOldE_of_oldFree i h2]
  | .cast e t, h => by
    rw [oldFreeE] at h
    rw [removeOldE, removeOldE_of_oldFree e h]
  | .field b f, h => by
    rw [oldFreeE] at h
    rw [removeOldE, removeOldE_of_oldFree b h]
  | .binary op l r, h => by
    rw [oldFreeE] at h
    obtain ⟨h1, h2⟩ := Bool.and_eq_true_iff.mp h
    rw [removeOldE, removeOldE_of_oldFree l h1, removeOldE_of_oldFree r h2]
  | .unary op e, h => by
    rw [oldFreeE] at h
    rw [removeOldE, removeOldE_of_oldFree e h]
  | .call f args, h => by
    rw [oldFreeE] at h
    obtain ⟨h1, h2⟩ := Bool.and_eq_true_iff.mp h
    rw [Bool.not_eq_eq_eq_not, Bool.not_true] at h1
    rw [removeOldE, if_neg (by rw [h1]; exact Bool.false_ne_true),
      removeOldL_of_oldFreeL args h2]
  | .methodCall r m args, h => by
    rw [oldFreeE] at h
    obtain ⟨h1, h2⟩ := Bool.and_eq_true_iff.mp h
    rw [removeOldE, removeOldE_of_oldFree r h1, removeOldL_of_oldFreeL args h2]

/-- A list of expressions without `old` calls is left unchanged. -/
theorem removeOldL_of_oldFreeL : ∀ l : List TExpr, oldFreeL l = true → removeOldL l = l
  | [], _ => rfl
  | a :: rest, h => by
    rw [oldFreeL] at h
    obtain ⟨h1, h2⟩ := Bool.and_eq_true_iff.mp h
    rw [removeOldL, removeOldE_of_oldFree a h1, removeOldL_of_oldFreeL rest h2]
end

mutual
/-- When no `old` call is nested inside another `old` call's argument,
one pass of `RemoveOld` yields an expression with no `old` calls at all. -/
theorem oldFree_removeOldE : ∀ e : TExpr, noNestedOldE e = true →
    oldFreeE (removeOldE e) = true
  | .lit _, _ => rfl
  | .path _, _ => rfl
  | .index b i, h => by
    rw [noNestedOldE] at h
    obtain ⟨h1, h2⟩ := Bool.and_eq_true_iff.mp h
    rw [removeOldE, oldFreeE, oldFree_removeOldE b h1, oldFree_removeOldE i h2]
    rfl
  | .cast e t, h => by
    rw [noNestedOldE] at h
    rw [removeOldE, oldFreeE]
    exact oldFree_removeOldE e h
  | .field b f, h => by
    rw [noNestedOldE] at h
    rw [removeOldE, oldFreeE]
    exact oldFree_removeOldE b h
  | .binary op l r, h => by
    rw [noNestedOldE] at h
    obtain ⟨h1, h2⟩ := Bool.and_eq_true_iff.mp h
    rw [removeOldE, oldFreeE, oldFree_removeOldE l h1, oldFree_removeOldE r h2]
    rfl
  | .unary op e, h => by
    rw [noNestedOldE] at h
    rw [removeOldE, oldFreeE]
    exact oldFree_removeOldE e h
  | .call f args, h => by
    rw [noNestedOldE] at h
    by_cases hcond : (pathToString f == "old" && args.length == 1) = true
    · rw [if_pos hcond] at h
      rw [removeOldE, if_pos hcond]
      have hlen : args.length = 1 :=
        beq_iff_eq.mp (Bool.and_eq_true_iff.mp hcond).2
      obtain ⟨a, rfl⟩ := List.length_eq_one.mp hlen
      rw [oldFreeL] at h
      obtain ⟨h1, _⟩ := Bool.and_eq_true_iff.mp h
      exact h1
    · rw [if_neg hcond] at h
      rw [removeOldE, if_neg hcond, oldFreeE]
      have hcf : (pathToString f == "old" && (removeOldL args).length == 1) = false := by
        rw [removeOldL_length args]
        exact Bool.eq_false_iff.mpr hcond
      rw [hcf]
      simp only [Bool.not_false, Bool.true_and]
      exact oldFree_removeOldL args h
  | .methodCall r m args, h => by
    rw [noNestedOldE] at h
    obtain ⟨h1, h2⟩ := Bool.and_eq_true_iff.mp h
    rw [removeOldE, oldFreeE, oldFree_removeOldE r h1, oldFree_removeOldL args h2]
    rfl

/-- List version of `oldFree_removeOldE`. -/
theorem oldFree_removeOldL : ∀ l : List TExpr, noNestedOldL l = true →
    oldFreeL (removeOldL l) = true
  | [], _ => rfl
  | a :: rest, h => by
    rw [noNestedOldL] at h
    obtain ⟨h1, h2⟩ := Bool.and_eq_true_iff.mp h
    rw [removeOldL, oldFreeL, oldFree_removeOldE a h1, oldFree_removeOldL rest h2]
    rfl
end

/-- Claim C8 (amended): one pass of the `old()`-removal rewrite replaces
each outermost `old` call with its argument but does not visit the
replacement, so it is a fixed point only when no `old` call is nested
inside another `old` call's argument; under that condition a second pass
leaves the expression unchanged. (The original claim — a fixed point in
one pass for every expression, including `old(old(e))` — fails, see the
counterexample.) -/
theorem C8_remove_old_fixed_point_unnested : ∀ e : TExpr,
    noNestedOldE e = true → removeOldE (removeOldE e) = removeOldE e := by
  intro e h
  exact removeOldE_of_oldFree (removeOldE e) (oldFree_removeOldE e h)

/-- Claim C8 counterexample: on `old(old(x))` one pass of the rewrite
produces `old(x)` — the pass does not recurse into the replacement — and
a second pass still changes the expression (to `x`), so the rewrite does
not reach a fixed point in one pass. -/
theorem C8_nested_old_counterexample :
    removeOldE oldOldX = oldX ∧
    removeOldE (removeOldE oldOldX) = TExpr.path ["x"] ∧
    (removeOldE (removeOldE oldOldX) = removeOldE oldOldX → False) := by
  refine ⟨rfl, rfl, ?_⟩
  intro h
  rw [show removeOldE oldOldX = oldX from rfl] at h
  rw [show removeOldE oldX = TExpr.path ["x"] from rfl] at h
  cases h

/-- Witness for C8 (amended): `old(x)` has no nested `old`, and the
second pass indeed leaves `removeOldE (old(x)) = x` unchanged. -/
theorem C8_witness :
    noNestedOldE oldX = true ∧
    removeOldE (removeOldE oldX) = removeOldE oldX :=
  ⟨rfl, C8_remove_old_fixed_point_unnested oldX rfl⟩

end PT
